import Mathlib

/-!
Verification of the valve-network solver (the "day16" component):
a shallow embedding of the C++ source into Lean 4, followed by theorems
about the embedded definitions.

Modelling conventions:
* `Node` (a `Nat`) stands for the identity of a `Valve` object (in the
  source, valves are addressed by pointers into an `unordered_map`;
  pointer order, used as a tie-break by `DistanceSorter`, is modelled by
  the order on `Nat`).
* `ValveNetwork` carries the list of valve identities (the map's key
  set) and the per-valve record (flow rate, label, connection list,
  with connections already resolved to node identities).
* C++ exceptions are modelled by `Except String`.
* `size_t` arithmetic is modelled by `Nat`: all values manipulated by
  the distance computation stay at or below `UNSET = UINT32_MAX`, far
  from the 64-bit wrap-around, so no modular reduction is needed.
* The `while (!Q.empty())` loop of the shortest-path computation removes
  exactly one element of `Q` per iteration, so running it with fuel
  `Q.length` is exact; likewise the search loop of `part1` is run with
  fuel `queueMeasure`, which is proved to dominate the number of
  iterations.
-/

namespace Day16

abbrev Node := Nat

/-- Sentinel used by the source for a not-yet-established distance:
`UINT32_MAX`. -/
def UNSET : Nat := 4294967295

/-- One valve record: flow rate, label, and the tunnel connections
(already resolved from labels to node identities, as done by
`network.at(neighbour)` in the source). -/
structure Valve where
  flowRate : Nat
  label : String
  connections : List Node

/-- The `ValveNetwork`: the key set of the `unordered_map` (as a list of
node identities) together with the valve stored at each key. -/
structure ValveNetwork where
  nodes : List Node
  valve : Node → Valve

def ValveNetwork.adj (net : ValveNetwork) (v : Node) : List Node :=
  (net.valve v).connections

def ValveNetwork.flow (net : ValveNetwork) (v : Node) : Nat :=
  (net.valve v).flowRate

/-- `DistanceSorter::operator()`: order by distance, break ties by the
identity (pointer) order. -/
def sorterLt (d : Node → Nat) (a b : Node) : Bool :=
  if d a = d b then decide (a < b) else decide (d a < d b)

/-- `std::min_element` over the frontier set `Q` with `sorterLt`:
returns the first (hence, for this strict total order, the unique)
minimal element. -/
def minElem (d : Node → Nat) : List Node → Option Node
  | [] => none
  | x :: xs => some (xs.foldl (fun m y => if sorterLt d y m then y else m) x)

/-- The inner `for (const auto &neighbour : valve->connections)` loop of
the relaxation step: for each neighbour still in `Q`, lower its distance
to `base + 1` when that is an improvement. -/
def relaxAll (ns : List Node) (q : List Node) (base : Nat) (d : Node → Nat) :
    Node → Nat :=
  ns.foldl
    (fun dd u =>
      if u ∈ q ∧ base + 1 < dd u then (fun x => if x = u then base + 1 else dd x)
      else dd)
    d

/-- Message of the exception thrown when a node with the sentinel
distance is dequeued (the label is rendered from the node identity). -/
def infMsg (v : Node) : String :=
  "Processing node " ++ toString v ++ " which has infinite distance"

/-- The `while (!Q.empty())` loop of
`Valve::calculateDistanceToOtherValves`, with explicit fuel (one unit
per iteration; each iteration removes exactly one element of `q`). -/
def dijkstraGo (adj : Node → List Node) : Nat → List Node → (Node → Nat) →
    Except String (Node → Nat)
  | 0, _, d => .ok d
  | fuel + 1, q, d =>
    match minElem d q with
    | none => .ok d
    | some v =>
      if d v = UNSET then .error (infMsg v)
      else dijkstraGo adj fuel (q.erase v) (relaxAll (adj v) (q.erase v) (d v) d)

/-- `Valve::calculateDistanceToOtherValves`: initialise every node's
distance to `UNSET`, the source's own distance to `0`, put all nodes in
the frontier, and run the relaxation loop.  The resulting map has every
network node as a key; its value function is returned. -/
def calculateDistanceToOtherValves (net : ValveNetwork) (self : Node) :
    Except String (Node → Nat) :=
  dijkstraGo net.adj net.nodes.length net.nodes
    (fun u => if u = self then 0 else UNSET)

/-- Convenience accessor: the computed distance table of `a`, evaluated
at `b` (propagating the error when the computation failed). -/
def calcAt (net : ValveNetwork) (a b : Node) : Except String Nat :=
  (calculateDistanceToOtherValves net a).map (fun t => t b)

/-- Walks of a given length in the connection graph:
`Steps adj a b n` holds when there is a walk of `n` edges from `a` to
`b`. -/
inductive Steps (adj : Node → List Node) : Node → Node → Nat → Prop
  | refl (a : Node) : Steps adj a a 0
  | tail {a b c : Node} {n : Nat} :
      Steps adj a b n → c ∈ adj b → Steps adj a c (n + 1)

/-- `b` is reachable from `a` in the connection graph. -/
def Reaches (adj : Node → List Node) (a b : Node) : Prop :=
  ∃ n, Steps adj a b n

/-- `n` is the minimum hop count from `a` to `b`. -/
def ShortestDist (adj : Node → List Node) (a b : Node) (n : Nat) : Prop :=
  Steps adj a b n ∧ ∀ m, Steps adj a b m → n ≤ m

/-- Well-formedness of a network, as guaranteed by `parse`: distinct
keys, and every connection resolves to a node of the same network. -/
structure NetWF (net : ValveNetwork) : Prop where
  nodup : net.nodes.Nodup
  closed : ∀ v ∈ net.nodes, ∀ u ∈ net.adj v, u ∈ net.nodes

/-- A search `State`: current valve, the opened valves with their
opening times (an association list; keys are never duplicated because a
valve already opened is not a legal target), and the elapsed time. -/
structure SState where
  current : Node
  openedValves : List (Node × Nat)
  elapsedTime : Nat
deriving DecidableEq

/-- `state.openedValves.contains(target)` on the association list. -/
def hasKey (l : List (Node × Nat)) (t : Node) : Bool :=
  l.any (fun kv => kv.1 == t)

/-- `State::totalPressureRelieved`: sum, over the opened valves, of the
flow rate times the remaining time after opening, where a valve opened
at or after the time limit contributes `0`. -/
def totalPressureRelieved (net : ValveNetwork) (s : SState) (timeLimit : Nat) :
    Nat :=
  (s.openedValves.map (fun kv =>
    if timeLimit ≤ kv.2 then 0 else net.flow kv.1 * (timeLimit - kv.2))).sum

/-- The targets for which the guard of the successor-creation branch of
`part1` holds: iterate the keys of `current->distances` (all network
nodes) and keep those not yet opened, with nonzero flow rate, while the
elapsed time is below the limit. -/
def legalMoves (net : ValveNetwork) (timeLimit : Nat) (s : SState) :
    List Node :=
  net.nodes.filter (fun t =>
    !hasKey s.openedValves t && decide (0 < net.flow t) &&
      decide (s.elapsedTime < timeLimit))

/-- The successor state built by `part1`: move to `target`, record it as
opened at `elapsedTime + distance + 1`, and advance the clock to that
same instant. -/
def stepState (dist : Node → Node → Nat) (s : SState) (target : Node) :
    SState :=
  ⟨target, (target, s.elapsedTime + dist s.current target + 1) :: s.openedValves,
    s.elapsedTime + dist s.current target + 1⟩

/-- Number of still-closed valves with nonzero flow rate: an upper bound
on the branching of a state, strictly decreasing along transitions. -/
def usableCount (net : ValveNetwork) (s : SState) : Nat :=
  (net.nodes.filter (fun v =>
    decide (0 < net.flow v) && !hasKey s.openedValves v)).length

/-- Termination measure of one queued state. -/
def stateMeasure (net : ValveNetwork) (s : SState) : Nat :=
  (usableCount net s + 1).factorial

/-- Termination measure of the whole work queue: dominates the number of
remaining loop iterations of the search. -/
def queueMeasure (net : ValveNetwork) (q : List SState) : Nat :=
  (q.map (stateMeasure net)).sum

/-- The `while (!states.empty())` loop of `part1`: pop the front state;
if it has successors, push them at the back; otherwise score it and keep
the running maximum (`if (finalPressure > max)`). -/
def part1Go (net : ValveNetwork) (dist : Node → Node → Nat) (timeLimit : Nat) :
    Nat → List SState → Nat → Nat
  | 0, _, best => best
  | _ + 1, [], best => best
  | fuel + 1, s :: rest, best =>
    match legalMoves net timeLimit s with
    | [] =>
      part1Go net dist timeLimit fuel rest
        (if best < totalPressureRelieved net s timeLimit then
          totalPressureRelieved net s timeLimit
        else best)
    | m :: ms =>
      part1Go net dist timeLimit fuel (rest ++ (m :: ms).map (stepState dist s))
        best

/-- Lookup of a map key by label: `network.at(label)` (as an `Option`;
`part1` turns the miss into the error of `unordered_map::at`). -/
def findLabel (net : ValveNetwork) (lab : String) : Option Node :=
  net.nodes.find? (fun v => (net.valve v).label == lab)

def startLabel : String := "AA"

def atFailMsg : String := "unordered_map::at: key AA not found"

/-- `part1`: look up the start valve `"AA"` (throwing when absent), then
run the worklist search from the initial state and return the maximum
score.  `dist` is the family of distance tables stored in the valves by
`parse` (`current->distances`). -/
def part1 (net : ValveNetwork) (dist : Node → Node → Nat) (timeLimit : Nat) :
    Except String Nat :=
  match findLabel net startLabel with
  | none => .error atFailMsg
  | some start =>
    .ok (part1Go net dist timeLimit (queueMeasure net [⟨start, [], 0⟩])
      [⟨start, [], 0⟩] 0)

/-- The states created and enqueued by the search of `part1` with time
budget `timeLimit`, starting from `start`: the initial state, and every
successor of a reachable state through the guard of the
successor-creation branch. -/
inductive ReachableState (net : ValveNetwork) (dist : Node → Node → Nat)
    (timeLimit : Nat) (start : Node) : SState → Prop
  | init : ReachableState net dist timeLimit start ⟨start, [], 0⟩
  | step {s : SState} {t : Node} :
      ReachableState net dist timeLimit start s →
      t ∈ legalMoves net timeLimit s →
      ReachableState net dist timeLimit start (stepState dist s t)

/-- The recursion tree of the search, folded with `max`: the maximum of
`totalPressureRelieved` over the terminal states below `s` (with fuel;
`usableCount net s < fuel` makes the fuel irrelevant). -/
def treeGo (net : ValveNetwork) (dist : Node → Node → Nat) (timeLimit : Nat) :
    Nat → SState → Nat
  | 0, _ => 0
  | fuel + 1, s =>
    match legalMoves net timeLimit s with
    | [] => totalPressureRelieved net s timeLimit
    | m :: ms =>
      (((m :: ms).map (fun t => treeGo net dist timeLimit fuel (stepState dist s t))).foldr
        max 0)

/-- The maximum score over the terminal states reachable from `s`. -/
def treeMax (net : ValveNetwork) (dist : Node → Node → Nat) (timeLimit : Nat)
    (s : SState) : Nat :=
  treeGo net dist timeLimit (usableCount net s + 1) s

/-- One per-file run of `main`'s loop body: the pipeline applied to the
(already parsed) network of one input file, with the fixed budget 30. -/
def processFile (input : ValveNetwork × (Node → Node → Nat)) :
    Except String Nat :=
  part1 input.1 input.2 30

/-- `main`: the `for (int i = 1; i < argc; i++)` loop runs inside a
single function-level `try`/`catch`, so the first exception aborts the
whole loop; on success the per-file results are collected in order. -/
def runMain (inputs : List (ValveNetwork × (Node → Node → Nat))) :
    Except String (List Nat) :=
  match inputs with
  | [] => .ok []
  | input :: rest => do
    let r ← processFile input
    let rs ← runMain rest
    .ok (r :: rs)

/-! ### Basic lemmas about the embedded operations -/

/-- Pointwise description of the relaxation pass: a node's distance is
lowered to `base + 1` exactly when it is a neighbour, still in the
frontier, and the new value is an improvement. -/
theorem relaxAll_apply (ns : List Node) (q : List Node) (base : Nat) :
    ∀ (d : Node → Nat) (u : Node),
      relaxAll ns q base d u =
        if u ∈ ns ∧ u ∈ q ∧ base + 1 < d u then base + 1 else d u := by
  induction ns with
  | nil =>
    intro d u
    simp [relaxAll]
  | cons n rest ih =>
    intro d u
    have hrw : relaxAll (n :: rest) q base d =
        relaxAll rest q base
          (if n ∈ q ∧ base + 1 < d n then
            (fun x => if x = n then base + 1 else d x)
          else d) := by
      simp [relaxAll]
    rw [hrw, ih]
    by_cases hu : u = n
    · subst hu
      by_cases hn : u ∈ q ∧ base + 1 < d u
      · have h1 : ¬ (u ∈ rest ∧ u ∈ q ∧ base + 1 < base + 1) := by
          rintro ⟨-, -, h⟩
          exact absurd h (lt_irrefl _)
        simp [hn, h1]
      · have h2 : ¬ (u ∈ rest ∧ u ∈ q ∧ base + 1 < d u) := by
          rintro ⟨-, h, h'⟩
          exact hn ⟨h, h'⟩
        have h3 : ¬ (u ∈ u :: rest ∧ u ∈ q ∧ base + 1 < d u) := by
          rintro ⟨-, h, h'⟩
          exact hn ⟨h, h'⟩
        simp [hn, h2, h3]
    · have hmem : u ∈ n :: rest ↔ u ∈ rest := by
        simp [List.mem_cons, hu]
      by_cases hn : n ∈ q ∧ base + 1 < d n
      · simp [hn, hu, hmem]
      · simp [hn, hmem]

/-- The minimum extracted from a nonempty frontier belongs to it and has
the least distance value. -/
theorem minElem_mem_le (d : Node → Nat) (q : List Node) (v : Node)
    (h : minElem d q = some v) : v ∈ q ∧ ∀ u ∈ q, d v ≤ d u := by
  match q with
  | [] => simp [minElem] at h
  | x :: xs =>
    have key : ∀ (l : List Node) (m : Node),
        (List.foldl (fun m y => if sorterLt d y m then y else m) m l) ∈ m :: l ∧
        d (List.foldl (fun m y => if sorterLt d y m then y else m) m l) ≤ d m ∧
        ∀ u ∈ l,
          d (List.foldl (fun m y => if sorterLt d y m then y else m) m l) ≤ d u := by
      intro l
      induction l with
      | nil =>
        intro m
        refine ⟨List.mem_singleton.mpr rfl, le_refl _, ?_⟩
        intro u hu
        cases hu
      | cons y ys ih =>
        intro m
        simp only [List.foldl_cons]
        by_cases hs : sorterLt d y m = true
        · rw [if_pos hs]
          obtain ⟨ihm, ihle, ihall⟩ := ih y
          have hym : d y ≤ d m := by
            unfold sorterLt at hs
            by_cases he : d y = d m
            · exact le_of_eq he
            · rw [if_neg he] at hs
              exact le_of_lt (of_decide_eq_true hs)
          refine ⟨?_, le_trans ihle hym, ?_⟩
          · rcases List.mem_cons.mp ihm with h1 | h1
            · exact List.mem_cons.mpr (Or.inr (List.mem_cons.mpr (Or.inl h1)))
            · exact List.mem_cons.mpr (Or.inr (List.mem_cons.mpr (Or.inr h1)))
          · intro u hu
            rcases List.mem_cons.mp hu with h1 | h1
            · exact h1 ▸ ihle
            · exact ihall u h1
        · rw [if_neg hs]
          obtain ⟨ihm, ihle, ihall⟩ := ih m
          have hmy : d m ≤ d y := by
            unfold sorterLt at hs
            by_cases he : d y = d m
            · exact le_of_eq he.symm
            · rw [if_neg he] at hs
              exact le_of_not_lt (fun hlt => hs (decide_eq_true hlt))
          refine ⟨?_, ihle, ?_⟩
          · rcases List.mem_cons.mp ihm with h1 | h1
            · exact List.mem_cons.mpr (Or.inl h1)
            · exact List.mem_cons.mpr (Or.inr (List.mem_cons.mpr (Or.inr h1)))
          · intro u hu
            rcases List.mem_cons.mp hu with h1 | h1
            · exact h1 ▸ le_trans ihle hmy
            · exact ihall u h1
    unfold minElem at h
    injection h with h
    obtain ⟨hm, hle, hall⟩ := key xs x
    subst h
    refine ⟨hm, ?_⟩
    intro u hu
    rcases List.mem_cons.mp hu with h1 | h1
    · exact h1 ▸ hle
    · exact hall u h1

/-- Step equation of the relaxation loop: empty frontier. -/
theorem dijkstraGo_succ_none (adj : Node → List Node) (n : Nat)
    (q : List Node) (d : Node → Nat) (hmin : minElem d q = none) :
    dijkstraGo adj (n + 1) q d = .ok d := by
  unfold dijkstraGo
  rw [hmin]

/-- Step equation of the relaxation loop: dequeued minimum has the
sentinel distance. -/
theorem dijkstraGo_succ_unset (adj : Node → List Node) (n : Nat)
    (q : List Node) (d : Node → Nat) (v : Node)
    (hmin : minElem d q = some v) (hv : d v = UNSET) :
    dijkstraGo adj (n + 1) q d = .error (infMsg v) := by
  unfold dijkstraGo
  rw [hmin]
  exact if_pos hv

/-- Step equation of the relaxation loop: dequeued minimum has an
established distance, so its neighbours are relaxed. -/
theorem dijkstraGo_succ_some (adj : Node → List Node) (n : Nat)
    (q : List Node) (d : Node → Nat) (v : Node)
    (hmin : minElem d q = some v) (hv : ¬ d v = UNSET) :
    dijkstraGo adj (n + 1) q d =
      dijkstraGo adj n (q.erase v) (relaxAll (adj v) (q.erase v) (d v) d) := by
  conv_lhs => unfold dijkstraGo
  rw [hmin]
  exact if_neg hv

/-- The frontier is exhausted exactly when `minElem` returns nothing. -/
theorem minElem_eq_none (d : Node → Nat) (q : List Node) :
    minElem d q = none ↔ q = [] := by
  cases q with
  | nil => simp [minElem]
  | cons x xs => simp [minElem]

/-- Membership in `legalMoves`, unfolded to the three conjuncts of the
source's guard. -/
theorem mem_legalMoves (net : ValveNetwork) (timeLimit : Nat) (s : SState)
    (t : Node) :
    t ∈ legalMoves net timeLimit s ↔
      t ∈ net.nodes ∧ hasKey s.openedValves t = false ∧ 0 < net.flow t ∧
        s.elapsedTime < timeLimit := by
  unfold legalMoves
  rw [List.mem_filter]
  simp [Bool.and_eq_true, Bool.not_eq_true', and_assoc]

/-- A distance pinned at `0` survives the relaxation pass (relaxation
only writes values of the form `base + 1 ≥ 1`, and only when smaller
than the current value). -/
theorem relaxAll_keeps_zero (ns q : List Node) (base : Nat) (d : Node → Nat)
    (x : Node) (h0 : d x = 0) :
    relaxAll ns q base d x = 0 := by
  rw [relaxAll_apply]
  by_cases hc : x ∈ ns ∧ x ∈ q ∧ base + 1 < d x
  · rw [h0] at hc
    exact absurd hc.2.2 (by omega)
  · rw [if_neg hc]
    exact h0

/-- Along the whole relaxation loop, a node that starts at distance `0`
still has distance `0` in any successfully returned table. -/
theorem dijkstraGo_keeps_zero (adj : Node → List Node) :
    ∀ (fuel : Nat) (q : List Node) (d : Node → Nat) (x : Node)
      (t : Node → Nat), d x = 0 → dijkstraGo adj fuel q d = .ok t → t x = 0 := by
  intro fuel
  induction fuel with
  | zero =>
    intro q d x t h0 hok
    unfold dijkstraGo at hok
    injection hok with h
    exact h ▸ h0
  | succ n ih =>
    intro q d x t h0 hok
    cases hmin : minElem d q with
    | none =>
      rw [dijkstraGo_succ_none adj n q d hmin] at hok
      injection hok with h
      exact h ▸ h0
    | some v =>
      by_cases hv : d v = UNSET
      · rw [dijkstraGo_succ_unset adj n q d v hmin hv] at hok
        cases hok
      · rw [dijkstraGo_succ_some adj n q d v hmin hv] at hok
        exact ih _ _ x t (relaxAll_keeps_zero _ _ _ _ _ h0) hok

/-! ### Concrete networks used as witnesses and counterexamples -/

def distZero : Node → Node → Nat := fun _ _ => 0

/-- A single valve `AA` with flow rate `0`. -/
def netSolo : ValveNetwork :=
  ⟨[0], fun _ => { flowRate := 0, label := "AA", connections := [] }⟩

/-- A single valve labelled `BB` (no `AA` anywhere). -/
def netNoAA : ValveNetwork :=
  ⟨[0], fun _ => { flowRate := 0, label := "BB", connections := [] }⟩

/-- Two valves `AA`, `BB` joined by a tunnel; `BB` has flow rate `13`. -/
def netPair : ValveNetwork :=
  ⟨[0, 1], fun v =>
    if v = 0 then { flowRate := 0, label := "AA", connections := [1] }
    else { flowRate := 13, label := "BB", connections := [0] }⟩

/-- Two isolated valves: `1` is unreachable from `0`. -/
def netSplit : ValveNetwork :=
  ⟨[0, 1], fun v =>
    if v = 0 then { flowRate := 0, label := "AA", connections := [] }
    else { flowRate := 5, label := "BB", connections := [] }⟩

/-- A directed 3-cycle `0 → 1 → 2 → 0` (the parse output for an input
whose tunnel lists are not symmetric). -/
def netCycle : ValveNetwork :=
  ⟨[0, 1, 2], fun v =>
    if v = 0 then { flowRate := 1, label := "AA", connections := [1] }
    else if v = 1 then { flowRate := 1, label := "BB", connections := [2] }
    else { flowRate := 1, label := "CC", connections := [0] }⟩

/-- Chain `AA — CC — BB`: the only nonzero-flow valve `BB` is at
distance `2` from the start. -/
def netChain : ValveNetwork :=
  ⟨[0, 1, 2], fun v =>
    if v = 0 then { flowRate := 0, label := "AA", connections := [2] }
    else if v = 1 then { flowRate := 13, label := "BB", connections := [2] }
    else { flowRate := 0, label := "CC", connections := [0, 1] }⟩

/-- The shortest-hop table of `netChain` (what
`calculateDistanceToOtherValves` stores into the valves). -/
def distChain : Node → Node → Nat := fun a b =>
  if a = b then 0
  else if (a = 0 ∧ b = 1) ∨ (a = 1 ∧ b = 0) then 2
  else 1

/-! ### C2 — terminal-state scoring -/

/-- C2: for every search state and time budget `T`,
`totalPressureRelieved` equals the sum over the opened valves of flow
rate times `T -` opening time (truncated subtraction), so a valve opened
at or after `T` contributes exactly zero. -/
theorem totalPressureRelieved_eq_sum (net : ValveNetwork) (s : SState)
    (timeLimit : Nat) :
    totalPressureRelieved net s timeLimit =
      (s.openedValves.map (fun kv => net.flow kv.1 * (timeLimit - kv.2))).sum := by
  unfold totalPressureRelieved
  congr 1
  apply List.map_congr_left
  intro kv _
  by_cases h : timeLimit ≤ kv.2
  · rw [if_pos h, Nat.sub_eq_zero_of_le h, Nat.mul_zero]
  · rw [if_neg h]

/-! ### C5 — fail fast on a dequeued unset distance -/

/-- C5: whenever the relaxation loop dequeues (as the minimum of the
frontier) a node whose recorded distance is still the sentinel `UNSET`,
the computation immediately returns the fatal error instead of a
table. -/
theorem dijkstraGo_unset_error (adj : Node → List Node) (fuel : Nat)
    (q : List Node) (d : Node → Nat) (v : Node)
    (hmin : minElem d q = some v) (hunset : d v = UNSET) :
    dijkstraGo adj (fuel + 1) q d = .error (infMsg v) :=
  dijkstraGo_succ_unset adj fuel q d v hmin hunset

/-- C5 witness: a concrete frontier whose minimum is unset. -/
theorem dijkstraGo_unset_error_witness :
    minElem (fun _ => UNSET) [5] = some 5 ∧
      dijkstraGo (fun _ => []) 1 [5] (fun _ => UNSET) = .error (infMsg 5) :=
  ⟨rfl, dijkstraGo_unset_error (fun _ => []) 0 [5] (fun _ => UNSET) 5 rfl rfl⟩

/-! ### C6 — distance of a node to itself -/

/-- C6: whenever the distance computation of a node `a` succeeds, the
resulting table records distance `0` from `a` to itself. -/
theorem calc_self_zero (net : ValveNetwork) (a : Node)
    (h : (calculateDistanceToOtherValves net a).isOk = true) :
    calcAt net a a = .ok 0 := by
  unfold calcAt
  cases hc : calculateDistanceToOtherValves net a with
  | error e =>
    rw [hc] at h
    simp [Except.isOk, Except.toBool] at h
  | ok t =>
    have ht : t a = 0 := by
      apply dijkstraGo_keeps_zero net.adj net.nodes.length net.nodes
        (fun u => if u = a then 0 else UNSET) a t
      · simp
      · exact hc
    simp [Except.map, ht]

/-- C6 witness: the table of valve `0` of the two-valve network. -/
theorem calc_self_zero_witness :
    (calculateDistanceToOtherValves netPair 0).isOk = true ∧
      calcAt netPair 0 0 = .ok 0 :=
  ⟨rfl, calc_self_zero netPair 0 rfl⟩

/-! ### C1 — elapsed time versus the budget -/

/-- C1 counterexample: with the chain `AA — CC — BB` and budget `T = 1`,
the search enqueues the state that travelled to `BB` (2 hops) and opened
it, whose elapsed time `0 + 2 + 1 = 3` exceeds the budget: the guard
only requires the current elapsed time to be below the budget, not the
resulting one. -/
theorem reachable_state_over_budget :
    ReachableState netChain distChain 1 0 ⟨1, [(1, 3)], 3⟩ ∧
      ¬ ((3 : Nat) ≤ 1) := by
  constructor
  · have h1 : (1 : Node) ∈ legalMoves netChain 1 ⟨0, [], 0⟩ := by decide
    exact ReachableState.step ReachableState.init h1
  · decide

/-- C1 amended: a travel-and-activate transition out of state `s` is
taken exactly under the source's guard — target not yet opened, target
flow rate nonzero, and the *current* elapsed time strictly below the
budget — and the successor's elapsed time is the current elapsed time
plus distance plus one (which may exceed the budget). -/
theorem legalMoves_guard (net : ValveNetwork) (dist : Node → Node → Nat)
    (timeLimit : Nat) (s : SState) (t : Node)
    (h : t ∈ legalMoves net timeLimit s) :
    hasKey s.openedValves t = false ∧ 0 < net.flow t ∧
      s.elapsedTime < timeLimit ∧
      (stepState dist s t).elapsedTime =
        s.elapsedTime + dist s.current t + 1 := by
  obtain ⟨-, h1, h2, h3⟩ := (mem_legalMoves net timeLimit s t).mp h
  exact ⟨h1, h2, h3, rfl⟩

/-- C1 amended witness: the transition of the counterexample network
satisfies the guard with current elapsed time `0 < 1`. -/
theorem legalMoves_guard_witness :
    (1 : Node) ∈ legalMoves netChain 1 ⟨0, [], 0⟩ ∧
      (hasKey ([] : List (Node × Nat)) 1 = false ∧ 0 < netChain.flow 1 ∧
        (0 : Nat) < 1 ∧
        (stepState distChain ⟨0, [], 0⟩ 1).elapsedTime =
          0 + distChain 0 1 + 1) :=
  ⟨by decide, legalMoves_guard netChain distChain 1 ⟨0, [], 0⟩ 1 (by decide)⟩

/-! ### C10 — missing start valve -/

/-- C10: when no valve of the parsed network carries the label `"AA"`,
`part1` fails with the lookup error before any state is explored,
instead of returning a score. -/
theorem part1_missing_start (net : ValveNetwork) (dist : Node → Node → Nat)
    (timeLimit : Nat) (h : ∀ v ∈ net.nodes, (net.valve v).label ≠ startLabel) :
    part1 net dist timeLimit = .error atFailMsg := by
  have hfind : findLabel net startLabel = none := by
    unfold findLabel
    rw [List.find?_eq_none]
    intro v hv
    simpa using h v hv
  unfold part1
  rw [hfind]

/-- C10 witness: the one-valve network whose only label is `BB`. -/
theorem part1_missing_start_witness :
    (∀ v ∈ netNoAA.nodes, (netNoAA.valve v).label ≠ startLabel) ∧
      part1 netNoAA distZero 30 = .error atFailMsg :=
  ⟨by decide, part1_missing_start netNoAA distZero 30 (by decide)⟩

/-! ### C9 — behaviour of the per-file loop on a fatal error -/

/-- C9 counterexample: with two input files, the first of which fails
(its network has no `AA` valve) while the second on its own is perfectly
processable, the run aborts with the first file's error; the second
file's result appears nowhere. -/
theorem runMain_aborts :
    runMain [(netNoAA, distZero), (netSolo, distZero)] = .error atFailMsg ∧
      processFile (netSolo, distZero) = .ok 0 := by
  constructor
  · rfl
  · rfl

/-- C9 amended: a fatal error while processing one input file aborts the
whole run with that error (the function-level catch sits outside the
per-file loop); the remaining files are not processed. -/
theorem runMain_stops_on_error (input : ValveNetwork × (Node → Node → Nat))
    (rest : List (ValveNetwork × (Node → Node → Nat))) (e : String)
    (h : processFile input = .error e) :
    runMain (input :: rest) = .error e := by
  unfold runMain
  rw [h]
  rfl

/-- C9 amended witness: the concrete failing first file. -/
theorem runMain_stops_on_error_witness :
    processFile (netNoAA, distZero) = .error atFailMsg ∧
      runMain [(netNoAA, distZero), (netSolo, distZero)] = .error atFailMsg :=
  ⟨rfl, runMain_stops_on_error (netNoAA, distZero) [(netSolo, distZero)]
    atFailMsg rfl⟩

/-! ### Step equations of the search loop -/

theorem part1Go_zero (net : ValveNetwork) (dist : Node → Node → Nat)
    (timeLimit : Nat) (q : List SState) (best : Nat) :
    part1Go net dist timeLimit 0 q best = best := rfl

theorem part1Go_nil (net : ValveNetwork) (dist : Node → Node → Nat)
    (timeLimit : Nat) (n : Nat) (best : Nat) :
    part1Go net dist timeLimit (n + 1) [] best = best := rfl

/-- Step equation: the popped state has no legal transition, so it is
scored and the running maximum updated. -/
theorem part1Go_terminal (net : ValveNetwork) (dist : Node → Node → Nat)
    (timeLimit : Nat) (n : Nat) (s : SState) (rest : List SState) (best : Nat)
    (hlm : legalMoves net timeLimit s = []) :
    part1Go net dist timeLimit (n + 1) (s :: rest) best =
      part1Go net dist timeLimit n rest
        (if best < totalPressureRelieved net s timeLimit then
          totalPressureRelieved net s timeLimit
        else best) := by
  conv_lhs => unfold part1Go
  rw [hlm]

/-- Step equation: the popped state has legal transitions, so its
successors are pushed at the back of the queue. -/
theorem part1Go_branch (net : ValveNetwork) (dist : Node → Node → Nat)
    (timeLimit : Nat) (n : Nat) (s : SState) (rest : List SState) (best : Nat)
    (m : Node) (ms : List Node) (hlm : legalMoves net timeLimit s = m :: ms) :
    part1Go net dist timeLimit (n + 1) (s :: rest) best =
      part1Go net dist timeLimit n (rest ++ (m :: ms).map (stepState dist s))
        best := by
  conv_lhs => unfold part1Go
  rw [hlm]

/-! ### C8 — a network with no nonzero-flow valve scores 0 -/

/-- C8: on a network in which every valve has flow rate `0` (and which
does contain the start valve `AA`), the search returns the score `0`
whatever the time budget is. -/
theorem part1_zero_flow (net : ValveNetwork) (dist : Node → Node → Nat)
    (timeLimit : Nat) (start : Node)
    (hAA : findLabel net startLabel = some start)
    (hflow : ∀ v ∈ net.nodes, net.flow v = 0) :
    part1 net dist timeLimit = .ok 0 := by
  have hlm : ∀ s, legalMoves net timeLimit s = [] := by
    intro s
    unfold legalMoves
    rw [List.filter_eq_nil_iff]
    intro v hv
    simp [hflow v hv]
  have huc : usableCount net ⟨start, [], 0⟩ = 0 := by
    unfold usableCount
    have : net.nodes.filter (fun v =>
        decide (0 < net.flow v) && !hasKey ([] : List (Node × Nat)) v) = [] := by
      rw [List.filter_eq_nil_iff]
      intro v hv
      simp [hflow v hv]
    rw [this]
    rfl
  have hqm : queueMeasure net [⟨start, [], 0⟩] = 1 := by
    unfold queueMeasure stateMeasure
    rw [List.map_singleton, List.sum_singleton, huc]
    rfl
  unfold part1
  rw [hAA]
  show Except.ok (part1Go net dist timeLimit
    (queueMeasure net [⟨start, [], 0⟩]) [⟨start, [], 0⟩] 0) = Except.ok 0
  rw [hqm, part1Go_terminal net dist timeLimit 0 _ _ _ (hlm _)]
  have htpr : totalPressureRelieved net ⟨start, [], 0⟩ timeLimit = 0 := by
    unfold totalPressureRelieved
    rfl
  rw [htpr, part1Go_zero]
  rfl

/-- C8 witness: the one-valve network `AA` with flow rate `0`. -/
theorem part1_zero_flow_witness :
    findLabel netSolo startLabel = some 0 ∧
      (∀ v ∈ netSolo.nodes, netSolo.flow v = 0) ∧
      part1 netSolo distZero 77 = .ok 0 :=
  ⟨rfl, by decide, part1_zero_flow netSolo distZero 77 0 rfl (by decide)⟩

/-! ### Folding with `max` -/

theorem foldrMax_eq (a : Nat) (l : List Nat) :
    l.foldr max a = max a (l.foldr max 0) := by
  induction l with
  | nil => simp
  | cons x xs ih =>
    simp only [List.foldr_cons, ih]
    omega

theorem le_foldrMax_mem (a x : Nat) (l : List Nat) (h : x ∈ l) :
    x ≤ l.foldr max a := by
  induction l with
  | nil => cases h
  | cons y ys ih =>
    rcases List.mem_cons.mp h with h1 | h1
    · subst h1
      exact le_max_left _ _
    · exact le_trans (ih h1) (le_max_right _ _)

theorem foldrMax_le (a c : Nat) (l : List Nat) (ha : a ≤ c)
    (h : ∀ x ∈ l, x ≤ c) : l.foldr max a ≤ c := by
  induction l with
  | nil => exact ha
  | cons y ys ih =>
    simp only [List.foldr_cons]
    exact max_le (h y (List.mem_cons_self y ys))
      (ih (fun x hx => h x (List.mem_cons.mpr (Or.inr hx))))

/-! ### The branching of a state shrinks along transitions -/

theorem filter_length_mono (l : List Node) (p p' : Node → Bool)
    (himp : ∀ x, p' x = true → p x = true) :
    (l.filter p').length ≤ (l.filter p).length := by
  induction l with
  | nil => exact le_refl _
  | cons y ys ih =>
    by_cases hy : p' y = true
    · rw [List.filter_cons_of_pos hy, List.filter_cons_of_pos (himp y hy)]
      simpa using ih
    · rw [List.filter_cons_of_neg (by simpa using hy)]
      by_cases hy2 : p y = true
      · rw [List.filter_cons_of_pos hy2]
        exact le_trans ih (by simp)
      · rw [List.filter_cons_of_neg (by simpa using hy2)]
        exact ih

theorem filter_length_lt (l : List Node) (p p' : Node → Bool)
    (himp : ∀ x, p' x = true → p x = true)
    (x0 : Node) (hx0 : x0 ∈ l) (hp : p x0 = true) (hp' : p' x0 = false) :
    (l.filter p').length < (l.filter p).length := by
  induction l with
  | nil => cases hx0
  | cons y ys ih =>
    by_cases hy : y = x0
    · subst hy
      rw [List.filter_cons_of_pos hp, List.filter_cons_of_neg (by simp [hp'])]
      exact Nat.lt_succ_of_le (filter_length_mono ys p p' himp)
    · have hx0' : x0 ∈ ys := by
        rcases List.mem_cons.mp hx0 with h1 | h1
        · exact absurd h1.symm hy
        · exact h1
      by_cases hyp' : p' y = true
      · rw [List.filter_cons_of_pos hyp', List.filter_cons_of_pos (himp y hyp')]
        simpa using ih hx0'
      · rw [List.filter_cons_of_neg (by simpa using hyp')]
        by_cases hyp : p y = true
        · rw [List.filter_cons_of_pos hyp]
          exact lt_of_lt_of_le (ih hx0') (by simp)
        · rw [List.filter_cons_of_neg (by simpa using hyp)]
          exact ih hx0'

/-- Opening one more valve strictly decreases the count of usable
valves. -/
theorem usableCount_step_lt (net : ValveNetwork) (dist : Node → Node → Nat)
    (timeLimit : Nat) (s : SState) (t : Node)
    (h : t ∈ legalMoves net timeLimit s) :
    usableCount net (stepState dist s t) < usableCount net s := by
  obtain ⟨hmem, hkey, hflow, -⟩ := (mem_legalMoves net timeLimit s t).mp h
  unfold usableCount stepState
  refine filter_length_lt net.nodes _ _ ?_ t hmem ?_ ?_
  · intro x hx
    simp only [Bool.and_eq_true, Bool.not_eq_true'] at hx ⊢
    refine ⟨hx.1, ?_⟩
    have h2 := hx.2
    unfold hasKey at h2 ⊢
    simp only [List.any_cons, Bool.or_eq_false_iff] at h2
    exact h2.2
  · simp only [Bool.and_eq_true, Bool.not_eq_true']
    exact ⟨decide_eq_true hflow, hkey⟩
  · unfold hasKey
    simp

/-! ### Step equations and fuel-independence of the recursion tree -/

theorem treeGo_terminal (net : ValveNetwork) (dist : Node → Node → Nat)
    (timeLimit : Nat) (n : Nat) (s : SState)
    (hlm : legalMoves net timeLimit s = []) :
    treeGo net dist timeLimit (n + 1) s =
      totalPressureRelieved net s timeLimit := by
  conv_lhs => unfold treeGo
  rw [hlm]

theorem treeGo_branch (net : ValveNetwork) (dist : Node → Node → Nat)
    (timeLimit : Nat) (n : Nat) (s : SState) (m : Node) (ms : List Node)
    (hlm : legalMoves net timeLimit s = m :: ms) :
    treeGo net dist timeLimit (n + 1) s =
      (((m :: ms).map
        (fun t => treeGo net dist timeLimit n (stepState dist s t))).foldr
        max 0) := by
  conv_lhs => unfold treeGo
  rw [hlm]

/-- The value of the recursion tree does not depend on the fuel, as long
as the fuel exceeds the usable-valve count. -/
theorem treeGo_congr (net : ValveNetwork) (dist : Node → Node → Nat)
    (timeLimit : Nat) :
    ∀ (f1 : Nat) (s : SState) (f2 : Nat), usableCount net s < f1 →
      usableCount net s < f2 →
      treeGo net dist timeLimit f1 s = treeGo net dist timeLimit f2 s := by
  intro f1
  induction f1 with
  | zero =>
    intro s f2 h1 h2
    exact absurd h1 (Nat.not_lt_zero _)
  | succ n ih =>
    intro s f2 h1 h2
    match f2, h2 with
    | f2 + 1, h2 =>
      cases hlm : legalMoves net timeLimit s with
      | nil =>
        rw [treeGo_terminal net dist timeLimit n s hlm,
          treeGo_terminal net dist timeLimit f2 s hlm]
      | cons m ms =>
        rw [treeGo_branch net dist timeLimit n s m ms hlm,
          treeGo_branch net dist timeLimit f2 s m ms hlm]
        congr 1
        apply List.map_congr_left
        intro t ht
        have hmv : t ∈ legalMoves net timeLimit s := hlm ▸ ht
        have hlt := usableCount_step_lt net dist timeLimit s t hmv
        exact ih (stepState dist s t) f2 (by omega) (by omega)

/-- The score of a state never decreases along a transition: the new
opened valve only adds a nonnegative contribution. -/
theorem tPR_le_step (net : ValveNetwork) (dist : Node → Node → Nat)
    (timeLimit : Nat) (s : SState) (t : Node) :
    totalPressureRelieved net s timeLimit ≤
      totalPressureRelieved net (stepState dist s t) timeLimit := by
  unfold totalPressureRelieved stepState
  simp only [List.map_cons, List.sum_cons]
  exact Nat.le_add_left _ _

/-- Every state's own score bounds the best terminal score below it from
below. -/
theorem tPR_le_treeGo (net : ValveNetwork) (dist : Node → Node → Nat)
    (timeLimit : Nat) :
    ∀ (fuel : Nat) (s : SState), usableCount net s < fuel →
      totalPressureRelieved net s timeLimit ≤
        treeGo net dist timeLimit fuel s := by
  intro fuel
  induction fuel with
  | zero =>
    intro s h
    exact absurd h (Nat.not_lt_zero _)
  | succ n ih =>
    intro s h
    cases hlm : legalMoves net timeLimit s with
    | nil =>
      rw [treeGo_terminal net dist timeLimit n s hlm]
    | cons m ms =>
      rw [treeGo_branch net dist timeLimit n s m ms hlm]
      have hmv : m ∈ legalMoves net timeLimit s := by
        rw [hlm]
        exact List.mem_cons_self m ms
      have hlt := usableCount_step_lt net dist timeLimit s m hmv
      refine le_trans (tPR_le_step net dist timeLimit s m)
        (le_trans (ih (stepState dist s m) (by omega)) ?_)
      apply le_foldrMax_mem
      exact List.mem_map.mpr ⟨m, List.mem_cons_self m ms, rfl⟩

/-- The per-valve score is monotone in the time budget. -/
theorem tPR_mono (net : ValveNetwork) (s : SState) (t1 t2 : Nat)
    (h : t1 ≤ t2) :
    totalPressureRelieved net s t1 ≤ totalPressureRelieved net s t2 := by
  unfold totalPressureRelieved
  apply List.sum_le_sum
  intro kv _
  by_cases h1 : t1 ≤ kv.2
  · rw [if_pos h1]
    exact Nat.zero_le _
  · rw [if_neg h1]
    have h2 : ¬ t2 ≤ kv.2 := by omega
    rw [if_neg h2]
    exact Nat.mul_le_mul_left _ (Nat.sub_le_sub_right h _)

/-- A transition legal with budget `t1` is legal with any larger budget
`t2`. -/
theorem legalMoves_mono (net : ValveNetwork) (s : SState) (t1 t2 : Nat)
    (h : t1 ≤ t2) (t : Node) (ht : t ∈ legalMoves net t1 s) :
    t ∈ legalMoves net t2 s := by
  obtain ⟨h1, h2, h3, h4⟩ := (mem_legalMoves net t1 s t).mp ht
  exact (mem_legalMoves net t2 s t).mpr ⟨h1, h2, h3, lt_of_lt_of_le h4 h⟩

/-- The best terminal score is monotone in the time budget. -/
theorem treeGo_mono (net : ValveNetwork) (dist : Node → Node → Nat) :
    ∀ (fuel : Nat) (s : SState) (t1 t2 : Nat), t1 ≤ t2 →
      usableCount net s < fuel →
      treeGo net dist t1 fuel s ≤ treeGo net dist t2 fuel s := by
  intro fuel
  induction fuel with
  | zero =>
    intro s t1 t2 h12 h
    exact absurd h (Nat.not_lt_zero _)
  | succ n ih =>
    intro s t1 t2 h12 h
    cases hlm1 : legalMoves net t1 s with
    | nil =>
      rw [treeGo_terminal net dist t1 n s hlm1]
      exact le_trans (tPR_mono net s t1 t2 h12)
        (tPR_le_treeGo net dist t2 (n + 1) s h)
    | cons m ms =>
      rw [treeGo_branch net dist t1 n s m ms hlm1]
      have hm2 : m ∈ legalMoves net t2 s :=
        legalMoves_mono net s t1 t2 h12 m
          (by rw [hlm1]; exact List.mem_cons_self m ms)
      cases hlm2 : legalMoves net t2 s with
      | nil =>
        rw [hlm2] at hm2
        cases hm2
      | cons m2 ms2 =>
        rw [treeGo_branch net dist t2 n s m2 ms2 hlm2]
        apply foldrMax_le _ _ _ (Nat.zero_le _)
        intro x hx
        obtain ⟨t, ht, rfl⟩ := List.mem_map.mp hx
        have hmv1 : t ∈ legalMoves net t1 s := hlm1 ▸ ht
        have hlt := usableCount_step_lt net dist t1 s t hmv1
        refine le_trans (ih (stepState dist s t) t1 t2 h12 (by omega)) ?_
        apply le_foldrMax_mem
        refine List.mem_map.mpr ⟨t, ?_, rfl⟩
        rw [← hlm2]
        exact legalMoves_mono net s t1 t2 h12 t hmv1

/-! ### The worklist loop computes the tree maximum -/

theorem queueMeasure_append (net : ValveNetwork) (a b : List SState) :
    queueMeasure net (a ++ b) = queueMeasure net a + queueMeasure net b := by
  unfold queueMeasure
  rw [List.map_append, List.sum_append]

theorem stateMeasure_pos (net : ValveNetwork) (s : SState) :
    0 < stateMeasure net s :=
  Nat.factorial_pos _

theorem sum_map_le_length_mul (l : List Node) (f : Node → Nat) (c : Nat)
    (h : ∀ x ∈ l, f x ≤ c) : (l.map f).sum ≤ l.length * c := by
  induction l with
  | nil => simp
  | cons y ys ih =>
    simp only [List.map_cons, List.sum_cons, List.length_cons]
    have := ih (fun x hx => h x (List.mem_cons.mpr (Or.inr hx)))
    have := h y (List.mem_cons_self y ys)
    calc f y + (ys.map f).sum ≤ c + ys.length * c := by omega
    _ = (ys.length + 1) * c := by ring

/-- The number of legal transitions of a state is at most its
usable-valve count. -/
theorem legalMoves_length_le (net : ValveNetwork) (timeLimit : Nat)
    (s : SState) : (legalMoves net timeLimit s).length ≤ usableCount net s := by
  unfold legalMoves usableCount
  apply filter_length_mono
  intro x hx
  simp only [Bool.and_eq_true] at hx ⊢
  exact ⟨hx.1.2, hx.1.1⟩

/-- The successors of a state weigh strictly less than the state itself:
the worklist measure shrinks at every iteration. -/
theorem queueMeasure_children_lt (net : ValveNetwork)
    (dist : Node → Node → Nat) (timeLimit : Nat) (s : SState) (m : Node)
    (ms : List Node) (hlm : legalMoves net timeLimit s = m :: ms) :
    queueMeasure net ((m :: ms).map (stepState dist s)) < stateMeasure net s := by
  have hbound : ∀ x ∈ m :: ms,
      stateMeasure net (stepState dist s x) ≤ (usableCount net s).factorial := by
    intro x hx
    have hmv : x ∈ legalMoves net timeLimit s := hlm ▸ hx
    have hlt := usableCount_step_lt net dist timeLimit s x hmv
    unfold stateMeasure
    exact Nat.factorial_le (by omega)
  have hlen : (m :: ms).length ≤ usableCount net s := by
    rw [← hlm]
    exact legalMoves_length_le net timeLimit s
  have h1 : queueMeasure net ((m :: ms).map (stepState dist s)) ≤
      (m :: ms).length * (usableCount net s).factorial := by
    unfold queueMeasure
    rw [List.map_map]
    exact sum_map_le_length_mul _ _ _ (fun x hx => hbound x hx)
  have h2 : (m :: ms).length * (usableCount net s).factorial ≤
      usableCount net s * (usableCount net s).factorial :=
    Nat.mul_le_mul_right _ hlen
  have h3 : usableCount net s * (usableCount net s).factorial <
      stateMeasure net s := by
    unfold stateMeasure
    rw [Nat.factorial_succ]
    exact (Nat.mul_lt_mul_right (Nat.factorial_pos _)).mpr (Nat.lt_succ_self _)
  omega

/-- The worklist loop of `part1`, run with enough fuel, computes the
running maximum of the best terminal score below each queued state. -/
theorem part1Go_eq_treeMax (net : ValveNetwork) (dist : Node → Node → Nat)
    (timeLimit : Nat) :
    ∀ (fuel : Nat) (q : List SState) (best : Nat),
      queueMeasure net q ≤ fuel →
      part1Go net dist timeLimit fuel q best =
        (q.map (treeMax net dist timeLimit)).foldr max best := by
  intro fuel
  induction fuel with
  | zero =>
    intro q best h
    cases q with
    | nil => rw [part1Go_zero]; rfl
    | cons s rest =>
      exfalso
      have h1 : 0 < queueMeasure net (s :: rest) := by
        unfold queueMeasure
        simp only [List.map_cons, List.sum_cons]
        have := stateMeasure_pos net s
        omega
      omega
  | succ n ih =>
    intro q best h
    cases q with
    | nil => rw [part1Go_nil]; rfl
    | cons s rest =>
      have hsplit : queueMeasure net (s :: rest) =
          stateMeasure net s + queueMeasure net rest := by
        unfold queueMeasure
        simp [List.map_cons, List.sum_cons]
      cases hlm : legalMoves net timeLimit s with
      | nil =>
        rw [part1Go_terminal net dist timeLimit n s rest best hlm]
        have hrest : queueMeasure net rest ≤ n := by
          have := stateMeasure_pos net s
          omega
        rw [ih rest _ hrest]
        have htm : treeMax net dist timeLimit s =
            totalPressureRelieved net s timeLimit :=
          treeGo_terminal net dist timeLimit (usableCount net s) s hlm
        conv_rhs => rw [List.map_cons, List.foldr_cons, htm]
        rw [foldrMax_eq
          (if best < totalPressureRelieved net s timeLimit then
            totalPressureRelieved net s timeLimit
          else best) (rest.map (treeMax net dist timeLimit)),
          foldrMax_eq best (rest.map (treeMax net dist timeLimit))]
        by_cases hc : best < totalPressureRelieved net s timeLimit
        · rw [if_pos hc]
          omega
        · rw [if_neg hc]
          omega
      | cons m ms =>
        rw [part1Go_branch net dist timeLimit n s rest best m ms hlm]
        have hch := queueMeasure_children_lt net dist timeLimit s m ms hlm
        have hrest : queueMeasure net (rest ++ (m :: ms).map (stepState dist s)) ≤ n := by
          rw [queueMeasure_append]
          omega
        rw [ih _ _ hrest]
        have htm : treeMax net dist timeLimit s =
            (((m :: ms).map (stepState dist s)).map
              (treeMax net dist timeLimit)).foldr max 0 := by
          unfold treeMax
          rw [treeGo_branch net dist timeLimit (usableCount net s) s m ms hlm]
          rw [List.map_map]
          congr 1
          apply List.map_congr_left
          intro t ht
          have hmv : t ∈ legalMoves net timeLimit s := hlm ▸ ht
          have hlt := usableCount_step_lt net dist timeLimit s t hmv
          exact treeGo_congr net dist timeLimit (usableCount net s)
            (stepState dist s t) (usableCount net (stepState dist s t) + 1)
            (by omega) (by omega)
        rw [List.map_append, List.foldr_append]
        conv_rhs => rw [List.map_cons, List.foldr_cons]
        rw [foldrMax_eq
          ((((m :: ms).map (stepState dist s)).map (treeMax net dist timeLimit)).foldr max best)
          (rest.map (treeMax net dist timeLimit))]
        rw [foldrMax_eq best
          (((m :: ms).map (stepState dist s)).map (treeMax net dist timeLimit))]
        rw [foldrMax_eq best (rest.map (treeMax net dist timeLimit))]
        rw [htm]
        omega

/-! ### C3 — monotonicity of the search in the time budget -/

/-- C3: for a fixed network and distance tables, the maximum score
returned by the search is monotonically non-decreasing in the time
budget. -/
theorem part1_monotone (net : ValveNetwork) (dist : Node → Node → Nat)
    (t1 t2 m1 m2 : Nat) (h12 : t1 ≤ t2)
    (h1 : part1 net dist t1 = .ok m1) (h2 : part1 net dist t2 = .ok m2) :
    m1 ≤ m2 := by
  unfold part1 at h1 h2
  cases hAA : findLabel net startLabel with
  | none =>
    rw [hAA] at h1
    cases h1
  | some start =>
    rw [hAA] at h1 h2
    have e1 : m1 = part1Go net dist t1
        (queueMeasure net [⟨start, [], 0⟩]) [⟨start, [], 0⟩] 0 := by
      injection h1 with h
      exact h.symm
    have e2 : m2 = part1Go net dist t2
        (queueMeasure net [⟨start, [], 0⟩]) [⟨start, [], 0⟩] 0 := by
      injection h2 with h
      exact h.symm
    rw [e1, e2, part1Go_eq_treeMax net dist t1 _ _ _ (le_refl _),
      part1Go_eq_treeMax net dist t2 _ _ _ (le_refl _)]
    simp only [List.map_cons, List.map_nil, List.foldr_cons, List.foldr_nil]
    have hmono := treeGo_mono net dist (usableCount net ⟨start, [], 0⟩ + 1)
      ⟨start, [], 0⟩ t1 t2 h12 (Nat.lt_succ_self _)
    unfold treeMax
    omega

/-- C3 witness: the chain network with budgets 3 and 10 (scores 0 and
91). -/
theorem part1_monotone_witness :
    (3 : Nat) ≤ 10 ∧ part1 netChain distChain 3 = .ok 0 ∧
      part1 netChain distChain 10 = .ok 91 ∧ (0 : Nat) ≤ 91 :=
  ⟨by decide, rfl, rfl,
    part1_monotone netChain distChain 3 10 0 91 (by decide) rfl rfl⟩

/-! ### Correctness of the shortest-distance computation -/

theorem UNSET_pos : 0 < UNSET := by decide

theorem steps_zero_inv (adj : Node → List Node) (a b : Node)
    (h : Steps adj a b 0) : b = a := by
  cases h
  rfl

theorem steps_succ_inv (adj : Node → List Node) (a b : Node) (n : Nat)
    (h : Steps adj a b (n + 1)) : ∃ w, Steps adj a w n ∧ b ∈ adj w := by
  cases h with
  | tail hs hedge => exact ⟨_, hs, hedge⟩

/-- A walk may be extended by one edge at its start. -/
theorem steps_prepend (adj : Node → List Node) (a : Node) :
    ∀ (n : Nat) (b c : Node), Steps adj b c n → b ∈ adj a →
      Steps adj a c (n + 1) := by
  intro n
  induction n with
  | zero =>
    intro b c hs hedge
    have hcb := steps_zero_inv adj b c hs
    subst hcb
    exact Steps.tail (Steps.refl a) hedge
  | succ k ih =>
    intro b c hs hedge
    obtain ⟨w, hw, hwc⟩ := steps_succ_inv adj b c k hs
    exact Steps.tail (ih b w hw hedge) hwc

/-- Walks starting inside a closed node set stay inside it. -/
theorem steps_in_nodes (nodes : List Node) (adj : Node → List Node)
    (hclosed : ∀ v ∈ nodes, ∀ u ∈ adj v, u ∈ nodes) (a : Node)
    (ha : a ∈ nodes) :
    ∀ (n : Nat) (b : Node), Steps adj a b n → b ∈ nodes := by
  intro n
  induction n with
  | zero =>
    intro b hs
    have := steps_zero_inv adj a b hs
    subst this
    exact ha
  | succ k ih =>
    intro b hs
    obtain ⟨w, hw, hedge⟩ := steps_succ_inv adj a b k hs
    exact hclosed w (ih w hw) b hedge

/-- Over a symmetric connection relation (on the node set), every walk
can be reversed with the same length. -/
theorem steps_symm_mem (nodes : List Node) (adj : Node → List Node)
    (hclosed : ∀ v ∈ nodes, ∀ u ∈ adj v, u ∈ nodes)
    (hsym : ∀ x ∈ nodes, ∀ y ∈ adj x, x ∈ adj y) (a : Node) (ha : a ∈ nodes) :
    ∀ (n : Nat) (b : Node), Steps adj a b n → Steps adj b a n := by
  intro n
  induction n with
  | zero =>
    intro b hs
    rw [steps_zero_inv adj a b hs]
    exact Steps.refl a
  | succ k ih =>
    intro b hs
    obtain ⟨w, hw, hedge⟩ := steps_succ_inv adj a b k hs
    have hwn : w ∈ nodes := steps_in_nodes nodes adj hclosed a ha k w hw
    exact steps_prepend adj b k w a (ih w hw) (hsym w hwn b hedge)

/-- The initial distance map of `calculateDistanceToOtherValves`. -/
def initDist (self : Node) : Node → Nat :=
  fun u => if u = self then 0 else UNSET

theorem calc_eq_go (net : ValveNetwork) (self : Node) :
    calculateDistanceToOtherValves net self =
      dijkstraGo net.adj net.nodes.length net.nodes (initDist self) := rfl

/-- Invariant of the relaxation loop of
`Valve::calculateDistanceToOtherValves`.  `q` is the frontier still to
be processed; a node outside `q` (but in the network) is settled.  The
fields say: the frontier is a duplicate-free subset of the network;
every recorded distance is at most the sentinel; every established
distance is realised by a walk; the source is pinned at `0` while
unprocessed; settled distances are optimal, established, relaxed into
their out-edges, and below every frontier distance; and distances are
bounded by the number of settled nodes. -/
structure DInv (nodes : List Node) (adj : Node → List Node) (src : Node)
    (q : List Node) (d : Node → Nat) : Prop where
  qnodup : q.Nodup
  qsub : ∀ u ∈ q, u ∈ nodes
  le_unset : ∀ u ∈ nodes, d u ≤ UNSET
  sound : ∀ u ∈ nodes, d u < UNSET → Steps adj src u (d u)
  zero : src ∈ q → d src = 0
  settled_opt : ∀ w ∈ nodes, w ∉ q → ∀ m, Steps adj src w m → d w ≤ m
  settled_lt : ∀ w ∈ nodes, w ∉ q → d w < UNSET
  cross : ∀ w ∈ nodes, w ∉ q → ∀ u ∈ nodes, u ∈ adj w → d u ≤ d w + 1
  hier : ∀ w ∈ nodes, w ∉ q → ∀ u ∈ q, d w ≤ d u
  bnd : ∀ w ∈ nodes, w ∉ q → d w + 1 ≤ nodes.length - q.length
  fbnd : ∀ u ∈ q, d u < UNSET → d u ≤ nodes.length - q.length

/-- The invariant holds for the initial frontier and distance map. -/
theorem DInv_init (nodes : List Node) (adj : Node → List Node) (src : Node)
    (hnodup : nodes.Nodup) :
    DInv nodes adj src nodes (initDist src) := by
  refine ⟨hnodup, fun u hu => hu, ?_, ?_, ?_, ?_, ?_, ?_, ?_, ?_, ?_⟩
  · intro u _
    unfold initDist
    by_cases h : u = src
    · rw [if_pos h]
      exact Nat.zero_le _
    · rw [if_neg h]
  · intro u _ hlt
    unfold initDist at hlt ⊢
    by_cases h : u = src
    · subst h
      rw [if_pos rfl]
      exact Steps.refl u
    · rw [if_neg h] at hlt
      exact absurd hlt (lt_irrefl _)
  · intro _
    unfold initDist
    rw [if_pos rfl]
  · intro w hw hwq
    exact absurd hw hwq
  · intro w hw hwq
    exact absurd hw hwq
  · intro w hw hwq
    exact absurd hw hwq
  · intro w hw hwq
    exact absurd hw hwq
  · intro w hw hwq
    exact absurd hw hwq
  · intro u _ hlt
    unfold initDist at hlt ⊢
    by_cases h : u = src
    · rw [if_pos h]
      exact Nat.zero_le _
    · rw [if_neg h] at hlt
      exact absurd hlt (lt_irrefl _)

/-- Key step of the Dijkstra argument: when `v` attains the minimum
distance over the frontier, every walk from the source to a settled node
is no shorter than that node's distance, and every walk into the
frontier is no shorter than `v`'s distance. -/
theorem dijkstra_extract (nodes : List Node) (adj : Node → List Node)
    (src : Node) (q : List Node) (d : Node → Nat)
    (hclosed : ∀ v ∈ nodes, ∀ u ∈ adj v, u ∈ nodes) (hsrc : src ∈ nodes)
    (inv : DInv nodes adj src q d) (v : Node) (hvq : v ∈ q)
    (hvle : ∀ u ∈ q, d v ≤ d u) :
    ∀ (m : Nat) (x : Node), Steps adj src x m →
      x ∈ nodes ∧ (x ∉ q → d x ≤ m) ∧ (x ∈ q → d v ≤ m) := by
  intro m
  induction m with
  | zero =>
    intro x hx
    have hxa := steps_zero_inv adj src x hx
    refine ⟨by rw [hxa]; exact hsrc, ?_, ?_⟩
    · intro hnq
      rw [hxa] at hnq ⊢
      exact inv.settled_opt src hsrc hnq 0 (Steps.refl src)
    · intro hq
      rw [hxa] at hq
      have h0 := inv.zero hq
      have h1 := hvle src hq
      omega
  | succ n ih =>
    intro x hx
    obtain ⟨w, hw, hedge⟩ := steps_succ_inv adj src x n hx
    obtain ⟨hwn, hw1, hw2⟩ := ih w hw
    have hxn : x ∈ nodes := hclosed w hwn x hedge
    refine ⟨hxn, ?_, ?_⟩
    · intro hxq
      by_cases hwq : w ∈ q
      · have h1 := inv.hier x hxn hxq v hvq
        have h2 := hw2 hwq
        omega
      · have h1 := inv.cross w hwn hwq x hxn hedge
        have h2 := hw1 hwq
        omega
    · intro hxq
      by_cases hwq : w ∈ q
      · have h2 := hw2 hwq
        omega
      · have h1 := inv.cross w hwn hwq x hxn hedge
        have h2 := hw1 hwq
        have h3 := hvle x hxq
        omega

/-- The invariant is preserved by one iteration of the loop: extract the
minimum `v` of the frontier and relax its out-edges. -/
theorem DInv_step (nodes : List Node) (adj : Node → List Node) (src : Node)
    (q : List Node) (d : Node → Nat)
    (hclosed : ∀ v ∈ nodes, ∀ u ∈ adj v, u ∈ nodes) (hsrc : src ∈ nodes)
    (inv : DInv nodes adj src q d) (v : Node)
    (hmin : minElem d q = some v) (hvUnset : ¬ d v = UNSET) :
    DInv nodes adj src (q.erase v) (relaxAll (adj v) (q.erase v) (d v) d) := by
  obtain ⟨hvq, hvle⟩ := minElem_mem_le d q v hmin
  have hmemE : ∀ u : Node, u ∈ q.erase v ↔ u ≠ v ∧ u ∈ q := by
    intro u
    exact inv.qnodup.mem_erase_iff
  have hvE : v ∉ q.erase v := by
    intro hc
    exact ((hmemE v).mp hc).1 rfl
  have hspec : ∀ u : Node, relaxAll (adj v) (q.erase v) (d v) d u =
      if u ∈ adj v ∧ u ∈ q.erase v ∧ d v + 1 < d u then d v + 1 else d u :=
    fun u => relaxAll_apply (adj v) (q.erase v) (d v) d u
  have hkeep : ∀ u : Node, u ∉ q.erase v →
      relaxAll (adj v) (q.erase v) (d v) d u = d u := by
    intro u hu
    rw [hspec u, if_neg]
    rintro ⟨-, h2, -⟩
    exact hu h2
  have hle' : ∀ u : Node, relaxAll (adj v) (q.erase v) (d v) d u ≤ d u := by
    intro u
    rw [hspec u]
    by_cases hc : u ∈ adj v ∧ u ∈ q.erase v ∧ d v + 1 < d u
    · rw [if_pos hc]
      omega
    · rw [if_neg hc]
  have hvnodes : v ∈ nodes := inv.qsub v hvq
  have hdvlt : d v < UNSET := lt_of_le_of_ne (inv.le_unset v hvnodes) hvUnset
  have hvopt : ∀ m, Steps adj src v m → d v ≤ m := by
    intro m hm
    exact (dijkstra_extract nodes adj src q d hclosed hsrc inv v hvq hvle
      m v hm).2.2 hvq
  have hsettledE : ∀ w : Node, w ∉ q.erase v → w = v ∨ w ∉ q := by
    intro w hw
    by_cases hwv : w = v
    · exact Or.inl hwv
    · right
      intro hwq
      exact hw ((hmemE w).mpr ⟨hwv, hwq⟩)
  have hqlen : q.length ≤ nodes.length :=
    (List.subperm_of_subset inv.qnodup (fun u hu => inv.qsub u hu)).length_le
  have hElen : (q.erase v).length = q.length - 1 := List.length_erase_of_mem hvq
  have hq1 : 1 ≤ q.length := List.length_pos_of_mem hvq
  refine ⟨?_, ?_, ?_, ?_, ?_, ?_, ?_, ?_, ?_, ?_, ?_⟩
  · exact inv.qnodup.erase v
  · intro u hu
    exact inv.qsub u (List.mem_of_mem_erase hu)
  · intro u hu
    have h1 := inv.le_unset u hu
    have h2 := hle' u
    omega
  · intro u hu hlt
    rw [hspec u] at hlt ⊢
    by_cases hc : u ∈ adj v ∧ u ∈ q.erase v ∧ d v + 1 < d u
    · rw [if_pos hc]
      exact Steps.tail (inv.sound v hvnodes hdvlt) hc.1
    · rw [if_neg hc] at hlt ⊢
      exact inv.sound u hu hlt
  · intro hs
    have hsq : src ∈ q := List.mem_of_mem_erase hs
    have h0 := inv.zero hsq
    rw [hspec src, if_neg]
    · exact h0
    · rintro ⟨-, -, h3⟩
      omega
  · intro w hw hwE m hm
    rcases hsettledE w hwE with rfl | hwq
    · rw [hkeep w hvE]
      exact hvopt m hm
    · rw [hkeep w (fun hc => hwq (List.mem_of_mem_erase hc))]
      exact inv.settled_opt w hw hwq m hm
  · intro w hw hwE
    rcases hsettledE w hwE with rfl | hwq
    · rw [hkeep w hvE]
      exact hdvlt
    · rw [hkeep w (fun hc => hwq (List.mem_of_mem_erase hc))]
      exact inv.settled_lt w hw hwq
  · intro w hw hwE u hu hedge
    rw [hkeep w hwE]
    rcases hsettledE w hwE with rfl | hwq
    · by_cases huE : u ∈ q.erase w
      · rw [hspec u]
        by_cases hlt2 : d w + 1 < d u
        · rw [if_pos ⟨hedge, huE, hlt2⟩]
        · rw [if_neg (fun hc => hlt2 hc.2.2)]
          omega
      · rw [hkeep u huE]
        rcases hsettledE u huE with rfl | hunq
        · omega
        · have h1 := inv.hier u hu hunq w hvq
          omega
    · have h1 := inv.cross w hw hwq u hu hedge
      have h2 := hle' u
      omega
  · intro w hw hwE u huE
    rw [hkeep w hwE]
    rcases hsettledE w hwE with rfl | hwq
    · rw [hspec u]
      by_cases hc : u ∈ adj w ∧ u ∈ q.erase w ∧ d w + 1 < d u
      · rw [if_pos hc]
        omega
      · rw [if_neg hc]
        have h1 := hvle u (List.mem_of_mem_erase huE)
        omega
    · rw [hspec u]
      by_cases hc : u ∈ adj v ∧ u ∈ q.erase v ∧ d v + 1 < d u
      · rw [if_pos hc]
        have h1 := inv.hier w hw hwq v hvq
        omega
      · rw [if_neg hc]
        exact inv.hier w hw hwq u (List.mem_of_mem_erase huE)
  · intro w hw hwE
    rw [hElen, hkeep w hwE]
    rcases hsettledE w hwE with rfl | hwq
    · have h1 := inv.fbnd w hvq hdvlt
      omega
    · have h1 := inv.bnd w hw hwq
      omega
  · intro u huE hlt
    rw [hElen]
    rw [hspec u] at hlt ⊢
    by_cases hc : u ∈ adj v ∧ u ∈ q.erase v ∧ d v + 1 < d u
    · rw [if_pos hc] at hlt ⊢
      have h1 := inv.fbnd v hvq hdvlt
      omega
    · rw [if_neg hc] at hlt ⊢
      have h1 := inv.fbnd u (List.mem_of_mem_erase huE) hlt
      omega

/-- Success direction: when every network node is reachable from the
source, the loop returns a table of exact minimum hop counts. -/
theorem dijkstraGo_ok_correct (nodes : List Node) (adj : Node → List Node)
    (src : Node) (hclosed : ∀ v ∈ nodes, ∀ u ∈ adj v, u ∈ nodes)
    (hsrc : src ∈ nodes) (hlen : nodes.length < UNSET)
    (hreach : ∀ b ∈ nodes, Reaches adj src b) :
    ∀ (fuel : Nat) (q : List Node) (d : Node → Nat), q.length ≤ fuel →
      DInv nodes adj src q d →
      ∃ t, dijkstraGo adj fuel q d = .ok t ∧
        ∀ b ∈ nodes, ShortestDist adj src b (t b) := by
  intro fuel
  induction fuel with
  | zero =>
    intro q d hql inv
    cases q with
    | cons x xs => exact absurd hql (by simp)
    | nil =>
      refine ⟨d, rfl, ?_⟩
      intro b hb
      have hnb : b ∉ ([] : List Node) := List.not_mem_nil b
      exact ⟨inv.sound b hb (inv.settled_lt b hb hnb),
        fun m hm => inv.settled_opt b hb hnb m hm⟩
  | succ n ih =>
    intro q d hql inv
    cases hmin : minElem d q with
    | none =>
      have hq : q = [] := (minElem_eq_none d q).mp hmin
      subst hq
      refine ⟨d, dijkstraGo_succ_none adj n [] d hmin, ?_⟩
      intro b hb
      have hnb : b ∉ ([] : List Node) := List.not_mem_nil b
      exact ⟨inv.sound b hb (inv.settled_lt b hb hnb),
        fun m hm => inv.settled_opt b hb hnb m hm⟩
    | some v =>
      obtain ⟨hvq, hvle⟩ := minElem_mem_le d q v hmin
      have hvnodes : v ∈ nodes := inv.qsub v hvq
      have hvUnset : ¬ d v = UNSET := by
        intro hvU
        have hallU : ∀ u ∈ q, d u = UNSET := by
          intro u hu
          have h1 := hvle u hu
          have h2 := inv.le_unset u (inv.qsub u hu)
          omega
        have hsrcq : src ∉ q := by
          intro hs
          have h0 := inv.zero hs
          have h1 := hallU src hs
          have h2 : (0 : Nat) < UNSET := UNSET_pos
          omega
        have hnever : ∀ (m : Nat) (x : Node), Steps adj src x m →
            x ∈ nodes ∧ x ∉ q := by
          intro m
          induction m with
          | zero =>
            intro x hx
            have hxa := steps_zero_inv adj src x hx
            refine ⟨by rw [hxa]; exact hsrc, by rw [hxa]; exact hsrcq⟩
          | succ k ihk =>
            intro x hx
            obtain ⟨w, hw, hedge⟩ := steps_succ_inv adj src x k hx
            obtain ⟨hwn, hwq⟩ := ihk w hw
            have hxn : x ∈ nodes := hclosed w hwn x hedge
            refine ⟨hxn, ?_⟩
            intro hxq
            have h1 := inv.cross w hwn hwq x hxn hedge
            have h2 := inv.bnd w hwn hwq
            have h3 := hallU x hxq
            have h4 : nodes.length - q.length ≤ nodes.length := Nat.sub_le _ _
            omega
        obtain ⟨m, hm⟩ := hreach v hvnodes
        exact (hnever m v hm).2 hvq
      rw [dijkstraGo_succ_some adj n q d v hmin hvUnset]
      have hql' : (q.erase v).length ≤ n := by
        have h1 := List.length_erase_of_mem hvq
        have h2 := List.length_pos_of_mem hvq
        omega
      exact ih (q.erase v) _ hql'
        (DInv_step nodes adj src q d hclosed hsrc inv v hmin hvUnset)

/-- Error direction: a node that can never be reached keeps the sentinel
distance, stays in the frontier, and eventually forces the loop into the
fatal-error branch. -/
theorem dijkstraGo_unreachable (nodes : List Node) (adj : Node → List Node)
    (src : Node) (hclosed : ∀ v ∈ nodes, ∀ u ∈ adj v, u ∈ nodes)
    (hsrc : src ∈ nodes) (b0 : Node) (hb0 : b0 ∈ nodes)
    (hnr : ¬ Reaches adj src b0) :
    ∀ (fuel : Nat) (q : List Node) (d : Node → Nat), q.length ≤ fuel →
      DInv nodes adj src q d → b0 ∈ q →
      ∃ e, dijkstraGo adj fuel q d = .error e := by
  intro fuel
  induction fuel with
  | zero =>
    intro q d hql inv hb0q
    cases q with
    | cons x xs => exact absurd hql (by simp)
    | nil => cases hb0q
  | succ n ih =>
    intro q d hql inv hb0q
    cases hmin : minElem d q with
    | none =>
      have hq : q = [] := (minElem_eq_none d q).mp hmin
      subst hq
      cases hb0q
    | some v =>
      have hd0 : d b0 = UNSET := by
        have h2 := inv.le_unset b0 hb0
        by_contra hne
        exact hnr ⟨d b0, inv.sound b0 hb0 (lt_of_le_of_ne h2 hne)⟩
      by_cases hvU : d v = UNSET
      · exact ⟨infMsg v, dijkstraGo_succ_unset adj n q d v hmin hvU⟩
      · rw [dijkstraGo_succ_some adj n q d v hmin hvU]
        obtain ⟨hvq, -⟩ := minElem_mem_le d q v hmin
        have hb0E : b0 ∈ q.erase v := by
          refine inv.qnodup.mem_erase_iff.mpr ⟨?_, hb0q⟩
          intro he
          rw [he] at hd0
          exact hvU hd0
        have hql' : (q.erase v).length ≤ n := by
          have h1 := List.length_erase_of_mem hvq
          have h2 := List.length_pos_of_mem hvq
          omega
        exact ih (q.erase v) _ hql'
          (DInv_step nodes adj src q d hclosed hsrc inv v hmin hvU) hb0E

/-! ### C4 — contract of the distance computation -/

/-- C4 counterexample: on the two-valve network with no tunnels, node
`1` is unreachable from node `0`; the computation does not return a
table omitting it — it aborts with the infinite-distance error (indeed,
during the whole run node `1` carries the `UINT32_MAX` sentinel). -/
theorem calc_unreachable_error_concrete :
    calculateDistanceToOtherValves netSplit 0 = .error (infMsg 1) := rfl

/-- C4 amended: on a well-formed network, if some node is unreachable
from the source the computation fails with an error (no table is
produced); if every node is reachable, it succeeds and the table gives
every network node its exact minimum hop count. -/
theorem calc_distance_contract (net : ValveNetwork) (src : Node)
    (hwf : NetWF net) (hsrc : src ∈ net.nodes)
    (hlen : net.nodes.length < UNSET) :
    ((∃ b, b ∈ net.nodes ∧ ¬ Reaches net.adj src b) →
        ∃ e, calculateDistanceToOtherValves net src = .error e) ∧
      ((∀ b ∈ net.nodes, Reaches net.adj src b) →
        ∃ t, calculateDistanceToOtherValves net src = .ok t ∧
          ∀ b ∈ net.nodes, ShortestDist net.adj src b (t b)) := by
  constructor
  · rintro ⟨b0, hb0, hnr⟩
    rw [calc_eq_go]
    exact dijkstraGo_unreachable net.nodes net.adj src hwf.closed hsrc b0 hb0
      hnr net.nodes.length net.nodes (initDist src) (le_refl _)
      (DInv_init net.nodes net.adj src hwf.nodup) hb0
  · intro hreach
    rw [calc_eq_go]
    exact dijkstraGo_ok_correct net.nodes net.adj src hwf.closed hsrc hlen
      hreach net.nodes.length net.nodes (initDist src) (le_refl _)
      (DInv_init net.nodes net.adj src hwf.nodup)

/-- C4 witness: the connected two-valve network at source `0`. -/
theorem calc_distance_contract_witness :
    NetWF netPair ∧ (0 : Node) ∈ netPair.nodes ∧
      netPair.nodes.length < UNSET ∧
      (((∃ b, b ∈ netPair.nodes ∧ ¬ Reaches netPair.adj 0 b) →
          ∃ e, calculateDistanceToOtherValves netPair 0 = .error e) ∧
        ((∀ b ∈ netPair.nodes, Reaches netPair.adj 0 b) →
          ∃ t, calculateDistanceToOtherValves netPair 0 = .ok t ∧
            ∀ b ∈ netPair.nodes, ShortestDist netPair.adj 0 b (t b))) :=
  ⟨⟨by decide, by decide⟩, by decide, by decide,
    calc_distance_contract netPair 0 ⟨by decide, by decide⟩ (by decide)
      (by decide)⟩

/-- Whenever the computation succeeds on a well-formed network, the
returned table records exact minimum hop counts (success itself rules
out unreachable nodes). -/
theorem calc_ok_shortest (net : ValveNetwork) (src : Node) (t : Node → Nat)
    (hwf : NetWF net) (hsrc : src ∈ net.nodes)
    (hlen : net.nodes.length < UNSET)
    (hok : calculateDistanceToOtherValves net src = .ok t) :
    ∀ b ∈ net.nodes, ShortestDist net.adj src b (t b) := by
  by_cases hreach : ∀ b ∈ net.nodes, Reaches net.adj src b
  · obtain ⟨t2, hok2, hsd⟩ := dijkstraGo_ok_correct net.nodes net.adj src
      hwf.closed hsrc hlen hreach net.nodes.length net.nodes (initDist src)
      (le_refl _) (DInv_init net.nodes net.adj src hwf.nodup)
    rw [calc_eq_go] at hok
    rw [hok] at hok2
    injection hok2 with h
    rw [h]
    exact hsd
  · push_neg at hreach
    obtain ⟨b0, hb0, hnr⟩ := hreach
    obtain ⟨e, he⟩ := dijkstraGo_unreachable net.nodes net.adj src hwf.closed
      hsrc b0 hb0 hnr net.nodes.length net.nodes (initDist src) (le_refl _)
      (DInv_init net.nodes net.adj src hwf.nodup) hb0
    rw [calc_eq_go] at hok
    rw [hok] at he
    cases he

/-! ### C7 — symmetry of the computed distances -/

/-- C7 counterexample: on the directed 3-cycle (a parse output whose
tunnel lists are not symmetric) both computations succeed, yet the
distance from `0` to `1` is `1` while the distance from `1` to `0` is
`2`. -/
theorem calc_asymmetric_concrete :
    calcAt netCycle 0 1 = .ok 1 ∧ calcAt netCycle 1 0 = .ok 2 ∧
      (1 : Nat) ≠ 2 := ⟨rfl, rfl, by decide⟩

/-- C7 amended: on a well-formed network whose connection relation is
symmetric (an undirected graph, as the puzzle input produces), whenever
the tables of `a` and of `b` are both computed they agree:
`distance(a, b) = distance(b, a)`. -/
theorem calc_symmetric (net : ValveNetwork) (a b : Node) (hwf : NetWF net)
    (ha : a ∈ net.nodes) (hb : b ∈ net.nodes)
    (hlen : net.nodes.length < UNSET)
    (hsym : ∀ x ∈ net.nodes, ∀ y ∈ net.adj x, x ∈ net.adj y)
    (hoka : (calculateDistanceToOtherValves net a).isOk = true)
    (hokb : (calculateDistanceToOtherValves net b).isOk = true) :
    calcAt net a b = calcAt net b a := by
  cases hca : calculateDistanceToOtherValves net a with
  | error e =>
    rw [hca] at hoka
    simp [Except.isOk, Except.toBool] at hoka
  | ok ta =>
    cases hcb : calculateDistanceToOtherValves net b with
    | error e =>
      rw [hcb] at hokb
      simp [Except.isOk, Except.toBool] at hokb
    | ok tb =>
      have hsa := calc_ok_shortest net a ta hwf ha hlen hca b hb
      have hsb := calc_ok_shortest net b tb hwf hb hlen hcb a ha
      have hsb2 : ShortestDist net.adj a b (tb a) := by
        refine ⟨steps_symm_mem net.nodes net.adj hwf.closed hsym b hb
          (tb a) a hsb.1, ?_⟩
        intro m hm
        exact hsb.2 m (steps_symm_mem net.nodes net.adj hwf.closed hsym a ha
          m b hm)
      have heq : ta b = tb a :=
        le_antisymm (hsa.2 (tb a) hsb2.1) (hsb2.2 (ta b) hsa.1)
      unfold calcAt
      rw [hca, hcb]
      simp [Except.map, heq]

/-- C7 amended witness: the undirected two-valve network. -/
theorem calc_symmetric_witness :
    NetWF netPair ∧ (0 : Node) ∈ netPair.nodes ∧ (1 : Node) ∈ netPair.nodes ∧
      netPair.nodes.length < UNSET ∧
      (∀ x ∈ netPair.nodes, ∀ y ∈ netPair.adj x, x ∈ netPair.adj y) ∧
      (calculateDistanceToOtherValves netPair 0).isOk = true ∧
      (calculateDistanceToOtherValves netPair 1).isOk = true ∧
      calcAt netPair 0 1 = calcAt netPair 1 0 :=
  ⟨⟨by decide, by decide⟩, by decide, by decide, by decide, by decide, rfl,
    rfl,
    calc_symmetric netPair 0 1 ⟨by decide, by decide⟩ (by decide) (by decide)
      (by decide) (by decide) rfl rfl⟩

end Day16
